import Mathlib

/-!
The "Replace := with var declaration" code action

A verification development for `replaceWithVarDeclaration`
(`gopls/internal/golang/replace_declaration.go`).

Conventions of the embedding.

* Go text (`string`, `[]byte`) is modelled by the list of its code points; a position or
  an offset counts code points of that list.  For ASCII sources this is the byte offset.
* A Go `int` is an `Int`; slicing and indexing check their bounds and panic as in Go.
* A run of the function either panics (`Except.error`, with the diagnostic) or returns
  normally (`Except.ok`), and then carries the list of `addEditAction` calls it made.
* The collaborators the function calls on its request (the enclosing path, the line of a
  position, the type information, the offset of a position) are fields of the request.
-/

namespace golang

/-- Go text as a list of code points. -/
abbrev Text := List Char

/-- The type `token.Pos`. -/
abbrev token.Pos := Int

/-- The assignment tokens of `go/token`. -/
inductive token.Token
  | ASSIGN
  | DEFINE
  | ADD_ASSIGN
  | SUB_ASSIGN
  | MUL_ASSIGN
  | QUO_ASSIGN
  | REM_ASSIGN
  | AND_ASSIGN
  | OR_ASSIGN
  | XOR_ASSIGN
  | SHL_ASSIGN
  | SHR_ASSIGN
  | AND_NOT_ASSIGN
deriving DecidableEq, Repr

/-- The node `*ast.Ident`: its position and its name. -/
structure ast.Ident where
  NamePos : token.Pos
  Name : Text
deriving DecidableEq, Repr

/-- An expression node: an identifier, or any other expression with its extent. -/
inductive ast.Expr
  | Ident (id : ast.Ident)
  | Other (From To : token.Pos)
deriving DecidableEq, Repr

/-- The method `Pos` of an expression. -/
def ast.Expr.Pos : ast.Expr → token.Pos
  | .Ident id => id.NamePos
  | .Other f _ => f

/-- The method `End` of an expression. -/
def ast.Expr.End : ast.Expr → token.Pos
  | .Ident id => id.NamePos + (id.Name.length : Int)
  | .Other _ t => t

/-- The node `*ast.AssignStmt`. -/
structure ast.AssignStmt where
  Lhs : List ast.Expr
  TokPos : token.Pos
  Tok : token.Token
  Rhs : List ast.Expr
deriving DecidableEq, Repr

/-- The method `Pos` of an assignment: `s.Lhs[0].Pos()`. -/
def ast.AssignStmt.Pos (s : ast.AssignStmt) : Except String token.Pos :=
  match s.Lhs with
  | [] => .error "runtime error: index out of range [0] with length 0"
  | e :: _ => .ok e.Pos

/-- The method `End` of an assignment: `s.Rhs[len(s.Rhs)-1].End()`. -/
def ast.AssignStmt.End (s : ast.AssignStmt) : Except String token.Pos :=
  match s.Rhs.getLast? with
  | none => .error "runtime error: index out of range [-1]"
  | some e => .ok e.End

/-- A node of the enclosing path: an assignment statement, or any other node. -/
inductive ast.Node
  | AssignStmt (s : ast.AssignStmt)
  | Other (From To : token.Pos)
deriving DecidableEq, Repr

/-- A `types.Object`, seen through `obj.Type().String()`. -/
structure types.Object where
  TypeString : Text
deriving DecidableEq, Repr

/-- The type `diff.Edit`. -/
structure diff.Edit where
  Start : Int
  End : Int
  New : Text
deriving DecidableEq, Repr

/-- A text edit of the protocol; its range is kept as the pair of offsets it converts. -/
structure protocol.TextEdit where
  Start : Int
  End : Int
  NewText : Text
deriving DecidableEq, Repr

/-- One call of `addEditAction`: the title and the document change
`protocol.DocumentChangeEdit(fh, textedits)`. -/
structure protocol.CodeAction where
  Title : String
  fh : String
  Edits : List protocol.TextEdit
deriving DecidableEq, Repr

/-- The type `*protocol.Mapper`: a mapper over the content of a document. -/
structure protocol.Mapper where
  Content : Text
deriving DecidableEq, Repr

/-- The request `*codeActionsRequest`, as far as the action reads it. -/
structure codeActionsRequest where
  /-- The result of `astutil.PathEnclosingInterval(req.pgf.File, req.start, req.end)`. -/
  path : List ast.Node
  /-- The field `req.pgf.Src`. -/
  Src : Text
  /-- The line `safetoken.StartPosition(req.pkg.FileSet(), p).Line` of a position. -/
  StartLine : token.Pos → Int
  /-- The call `req.pkg.TypesInfo().ObjectOf(ident)`; `none` is `nil`. -/
  ObjectOf : Option ast.Ident → Option types.Object
  /-- The call `safetoken.Offset(req.pgf.Tok, p)`: the offset and the error. -/
  Offset : token.Pos → Int × Option String
  /-- The handle `req.fh`. -/
  fh : String

/-- Modelled from the spec: the mapper `req.pgf.Mapper` (the parsed-file type is not among
the sources at hand) is the position mapper of the document, whose text is the source
buffer of the request. -/
def codeActionsRequest.Mapper (req : codeActionsRequest) : protocol.Mapper :=
  ⟨req.Src⟩

/-- The predicate `unicode.IsSpace`. -/
def unicode.IsSpace (c : Char) : Bool :=
  let r := c.toNat
  (0x09 ≤ r && r ≤ 0x0d) || r == 0x20 || r == 0x85 || r == 0xa0 || r == 0x1680 ||
    (0x2000 ≤ r && r ≤ 0x200a) || r == 0x2028 || r == 0x2029 || r == 0x202f ||
    r == 0x205f || r == 0x3000

/-- The function `strings.TrimSpace`: leading and trailing white space removed. -/
def strings.TrimSpace (s : Text) : Text :=
  (s.dropWhile unicode.IsSpace).rdropWhile unicode.IsSpace

/-- The scan of `strings.Index` from offset `i`. -/
def strings.Index.go (substr : Text) : Text → Nat → Int
  | [], i => if substr.isPrefixOf [] then (i : Int) else -1
  | c :: cs, i => if substr.isPrefixOf (c :: cs) then (i : Int) else strings.Index.go substr cs (i + 1)

/-- The function `strings.Index`: the index of the first instance of `substr` in `s`,
or `-1`. -/
def strings.Index (s substr : Text) : Int :=
  strings.Index.go substr s 0

/-- The function `bytes.Split(s, "\n")`: the pieces of `s` between line feeds. -/
def bytes.Split : Text → List Text
  | [] => [[]]
  | c :: cs =>
    if c = '\n' then [] :: bytes.Split cs
    else
      match bytes.Split cs with
      | [] => [[c]]
      | l :: ls => (c :: l) :: ls

/-- The loop of lines 28 to 34: every assignment statement met on the path is stored
in `assign`, so the last one met stays. -/
def selectAssign (path : List ast.Node) : Option ast.AssignStmt :=
  path.foldl
    (fun assign n =>
      match n with
      | .AssignStmt s => some s
      | .Other _ _ => assign)
    none

/-- Lines 39 to 44: the indentation of line `targetLineNumber` of the source. -/
def indentation (Src : Text) (targetLineNumber : Int) : Except String Text :=
  let split := bytes.Split Src
  let i := targetLineNumber - 1
  if i < 0 ∨ (split.length : Int) ≤ i then
    .error "runtime error: index out of range"
  else
    let firstLine := split.getD i.toNat []
    let trimmed := strings.TrimSpace firstLine
    let idx := strings.Index firstLine trimmed
    if idx < 0 ∨ (firstLine.length : Int) < idx then
      .error "runtime error: slice bounds out of range"
    else
      .ok (firstLine.take idx.toNat)

/-- The assertion `ident, _ := expr.(*ast.Ident)`. -/
def asIdent : ast.Expr → Option ast.Ident
  | .Ident id => some id
  | .Other _ _ => none

/-- Lines 48 to 60: the loop over the left-hand side, writing to `buf`.  The result
`none` is the early `return` of line 52. -/
def writeDeclarations (ObjectOf : Option ast.Ident → Option types.Object) (indent : Text) :
    List ast.Expr → Text → Except String (Option Text)
  | [], buf => .ok (some buf)
  | expr :: rest, buf =>
    match ObjectOf (asIdent expr) with
    | none => .ok none
    | some obj =>
      match asIdent expr with
      | none => .error "runtime error: invalid memory address or nil pointer dereference"
      | some ident =>
        writeDeclarations ObjectOf indent rest
          (buf ++ ("var ".toList ++ ident.Name ++ " ".toList ++ obj.TypeString ++ "\n".toList)
            ++ (indent ++ ident.Name ++ " = ".toList))

/-- Modelled from the spec: the edit/diff emitter `protocol.EditsFromDiffEdits` (not among
the sources at hand) converts "a list of (offset-range, replacement-text) edits into a
document-change description", or fails "if positions are inconsistent with the document";
an edit is consistent when `start <= end <= length(source)`, with offsets from zero. -/
def protocol.EditsFromDiffEdits (m : protocol.Mapper) :
    List diff.Edit → Except String (List protocol.TextEdit)
  | [] => .ok []
  | e :: es =>
    if 0 ≤ e.Start ∧ e.Start ≤ e.End ∧ e.End ≤ (m.Content.length : Int) then
      match protocol.EditsFromDiffEdits m es with
      | .error err => .error err
      | .ok tes => .ok (⟨e.Start, e.End, e.New⟩ :: tes)
    else
      .error "invalid offset"

/-- The title given to `addEditAction`. -/
def title : String := "Replace := with var declaration"

/-- The function `replaceWithVarDeclaration`.  `Except.error` is a panic; `Except.ok`
carries the calls of `req.addEditAction`. -/
def replaceWithVarDeclaration (req : codeActionsRequest) :
    Except String (List protocol.CodeAction) :=
  match selectAssign req.path with
  | none => .error "runtime error: invalid memory address or nil pointer dereference"
  | some assign =>
    if assign.Lhs.length ≠ 1 then .ok []
    else
      match assign.Pos with
      | .error p => .error p
      | .ok pos =>
        match indentation req.Src (req.StartLine pos) with
        | .error p => .error p
        | .ok indent =>
          match writeDeclarations req.ObjectOf indent assign.Lhs [] with
          | .error p => .error p
          | .ok none => .ok []
          | .ok (some buf) =>
            let start := (req.Offset pos).1
            match assign.End with
            | .error p => .error p
            | .ok endPos =>
              let end_ := (req.Offset endPos).1
              let edits : List diff.Edit := [⟨start, end_, buf⟩]
              match protocol.EditsFromDiffEdits req.Mapper edits with
              | .error err =>
                .error ("failed to convert diff.Edit to protocol.TextEdit:" ++ err)
              | .ok textedits => .ok [⟨title, req.fh, textedits⟩]

/-- The proposals a run emitted: none when it panicked. -/
def proposals : Except String (List protocol.CodeAction) → List protocol.CodeAction
  | .ok acts => acts
  | .error _ => []

/-- Modelled from the spec: applying an edit, "a (start offset, end offset, replacement
text) triple describing a textual substitution in the original source buffer" (the diff
package is not among the sources at hand). -/
def applyEdit (src : Text) (e : protocol.TextEdit) : Text :=
  src.take e.Start.toNat ++ e.NewText ++ src.drop e.End.toNat


/-- The statement the specification asks for: the innermost assignment statement on a
path ordered innermost first, that is the first assignment statement in path order. -/
def innermostAssign : List ast.Node → Option ast.AssignStmt
  | [] => none
  | .AssignStmt s :: _ => some s
  | .Other _ _ :: rest => innermostAssign rest

/-! Concrete requests -/

/-- Type information in which every identifier is an `int`. -/
def intInfo : Option ast.Ident → Option types.Object
  | some _ => some ⟨"int".toList⟩
  | none => none

/-- Type information with `x : int` and `f : func()`. -/
def nestedInfo : Option ast.Ident → Option types.Object
  | some id =>
    if id.Name = "x".toList then some ⟨"int".toList⟩
    else if id.Name = "f".toList then some ⟨"func()".toList⟩
    else none
  | none => none

/-- The offsets of a file of base 1, every position in range. -/
def offsetBase1 (p : token.Pos) : Int × Option String :=
  (p - 1, none)

/-- The offsets of another file, of base 100 and size 53: a position outside of it gets
`-1` and an error. -/
def offsetOtherFile (p : token.Pos) : Int × Option String :=
  if 100 ≤ p ∧ p ≤ 153 then (p - 100, none) else (-1, some "pos is not in range")

/-- The source of the end-to-end scenario: `y := compute()` indented by four spaces. -/
def srcSimple : Text :=
  "package p\n\nfunc f() \x7b\n    y := compute()\n    _ = y\n\x7d\n".toList

/-- The statement `y := compute()` of `srcSimple`, at offsets 26 to 40. -/
def assignSimple : ast.AssignStmt :=
  ⟨[.Ident ⟨27, "y".toList⟩], 29, .DEFINE, [.Other 32 41]⟩

/-- The path from the identifier `y` out to the file. -/
def pathSimple : List ast.Node :=
  [.Other 27 28, .AssignStmt assignSimple, .Other 21 53, .Other 12 53, .Other 1 53]

/-- A selection on `y` in `y := compute()`, with `y : int`. -/
def reqSimple : codeActionsRequest :=
  ⟨pathSimple, srcSimple, fun _ => 4, intInfo, offsetBase1, "file:///p.go"⟩

/-- The same selection when the type information does not know `y`. -/
def reqUnresolved : codeActionsRequest :=
  ⟨pathSimple, srcSimple, fun _ => 4, fun _ => none, offsetBase1, "file:///p.go"⟩

/-- The same selection when the token file of the request is another file, so that the
start and the end of the statement are out of its range. -/
def reqOtherFile : codeActionsRequest :=
  ⟨pathSimple, srcSimple, fun _ => 4, intInfo, offsetOtherFile, "file:///p.go"⟩

/-- A source with `x := 1` inside the function literal of `f := func() ...`. -/
def srcNested : Text :=
  "package p\n\nfunc g() \x7b\n\tf := func() \x7b\n\t\tx := 1\n\t\t_ = x\n\t\x7d\n\tf()\n\x7d\n".toList

/-- The inner statement `x := 1`, at offsets 39 to 45. -/
def assignInner : ast.AssignStmt :=
  ⟨[.Ident ⟨40, "x".toList⟩], 42, .DEFINE, [.Other 45 46]⟩

/-- The outer statement `f := func() ...`, at offsets 23 to 56. -/
def assignOuter : ast.AssignStmt :=
  ⟨[.Ident ⟨24, "f".toList⟩], 26, .DEFINE, [.Other 29 57]⟩

/-- The path from the identifier `x`, innermost first: the inner statement, the body and
the function literal, the outer statement, the body of `g`, its declaration, the file. -/
def pathNested : List ast.Node :=
  [.Other 40 41, .AssignStmt assignInner, .Other 36 57, .Other 29 57,
    .AssignStmt assignOuter, .Other 21 64, .Other 12 64, .Other 1 64]

/-- A selection on `x` in the nested `x := 1`. -/
def reqNested : codeActionsRequest :=
  ⟨pathNested, srcNested, fun p => if p < 38 then 4 else 5, nestedInfo, offsetBase1,
    "file:///p.go"⟩

/-- A source with the plain assignment `x = 1` to a declared variable. -/
def srcPlain : Text :=
  "package p\n\nvar x int\n\nfunc f() \x7b\n\tx = 1\n\x7d\n".toList

/-- The statement `x = 1`, at offsets 34 to 39. -/
def assignPlain : ast.AssignStmt :=
  ⟨[.Ident ⟨35, "x".toList⟩], 37, .ASSIGN, [.Other 39 40]⟩

/-- A selection on `x` in `x = 1`. -/
def reqPlain : codeActionsRequest :=
  ⟨[.Other 35 36, .AssignStmt assignPlain, .Other 32 42, .Other 23 42, .Other 1 42],
    srcPlain, fun _ => 6, intInfo, offsetBase1, "file:///p.go"⟩

/-- A selection on `1` in `return 1`: no assignment statement encloses it. -/
def reqReturn : codeActionsRequest :=
  ⟨[.Other 35 36, .Other 28 36, .Other 25 38, .Other 12 38, .Other 1 38],
    "package p\n\nfunc f() int \x7b\n\treturn 1\n\x7d\n".toList,
    fun _ => 4, intInfo, offsetBase1, "file:///p.go"⟩

/-- The statement `a, b := f()`. -/
def assignMulti : ast.AssignStmt :=
  ⟨[.Ident ⟨24, "a".toList⟩, .Ident ⟨27, "b".toList⟩], 29, .DEFINE, [.Other 32 35]⟩

/-- A selection on `a` in `a, b := f()`. -/
def reqMulti : codeActionsRequest :=
  ⟨[.Other 24 25, .AssignStmt assignMulti, .Other 21 50, .Other 12 50, .Other 1 50],
    "package p\n\nfunc g() \x7b\n\ta, b := f()\n\t_, _ = a, b\n\x7d\n".toList,
    fun _ => 4, intInfo, offsetBase1, "file:///p.go"⟩

/-! The search for the statement -/

/-- The loop body of the search, started from any value of `assign`. -/
theorem foldl_no_assign (path : List ast.Node) (init : Option ast.AssignStmt)
    (h : ∀ n ∈ path, ∀ s, n ≠ ast.Node.AssignStmt s) :
    path.foldl
      (fun assign n =>
        match n with
        | .AssignStmt s => some s
        | .Other _ _ => assign)
      init = init := by
  induction path generalizing init with
  | nil => rfl
  | cons n rest ih =>
    have hrest : ∀ m ∈ rest, ∀ s, m ≠ ast.Node.AssignStmt s :=
      fun m hm => h m (List.mem_cons_of_mem _ hm)
    cases n with
    | AssignStmt s => exact absurd rfl (h _ (List.mem_cons_self _ _) s)
    | Other f t => simpa [List.foldl] using ih init hrest

/-- A path without an assignment statement leaves `assign` nil. -/
theorem selectAssign_eq_none (path : List ast.Node)
    (h : ∀ n ∈ path, ∀ s, n ≠ ast.Node.AssignStmt s) : selectAssign path = none :=
  foldl_no_assign path none h

/-- The search keeps the last assignment statement of the path. -/
theorem selectAssign_last (pre post : List ast.Node) (s : ast.AssignStmt)
    (h : ∀ n ∈ post, ∀ t, n ≠ ast.Node.AssignStmt t) :
    selectAssign (pre ++ ast.Node.AssignStmt s :: post) = some s := by
  unfold selectAssign
  rw [List.foldl_append, List.foldl_cons]
  exact foldl_no_assign post (some s) h

/-! Strings -/

theorem index_go_skip (p : Char → Bool) (sub : Text) (h : Char) (t : Text) (hsub : sub = h :: t)
    (hh : p h = false) (ws rest : Text) (i : Nat) (hws : ∀ c ∈ ws, p c = true)
    (hpre : sub <+: rest) :
    strings.Index.go sub (ws ++ rest) i = ((i + ws.length : Nat) : Int) := by
  induction ws generalizing i with
  | nil =>
    have hp : sub.isPrefixOf rest = true := List.isPrefixOf_iff_prefix.mpr hpre
    cases rest with
    | nil => simp [strings.Index.go, hp]
    | cons c cs => simp [strings.Index.go, hp]
  | cons c ws ih =>
    have hc : p c = true := hws c (List.mem_cons_self _ _)
    have hne : h ≠ c := by
      intro e
      rw [e, hc] at hh
      exact Bool.noConfusion hh
    have hnp : sub.isPrefixOf (c :: (ws ++ rest)) = false := by
      rw [hsub]
      simp [List.isPrefixOf, hne]
    have := ih (i + 1) (fun d hd => hws d (List.mem_cons_of_mem _ hd))
    show strings.Index.go sub (c :: (ws ++ rest)) i = _
    rw [strings.Index.go, hnp, if_neg Bool.false_ne_true, this, List.length_cons]
    congr 1
    omega

/-- On a line with a character that is not white space, the trimmed line starts at the
first such character and is a leading part of what follows the white space. -/
theorem trimSpace_shape (line : Text) (hns : ∃ c ∈ line, unicode.IsSpace c = false) :
    ∃ h t, strings.TrimSpace line = h :: t ∧ unicode.IsSpace h = false ∧
      strings.TrimSpace line <+: line.dropWhile unicode.IsSpace := by
  obtain ⟨c, hc, hcs⟩ := hns
  have hpre : strings.TrimSpace line <+: line.dropWhile unicode.IsSpace :=
    List.rdropWhile_prefix _ _
  cases hd : line.dropWhile unicode.IsSpace with
  | nil =>
    have hall := List.dropWhile_eq_nil_iff.mp hd c hc
    rw [hcs] at hall
    exact Bool.noConfusion hall
  | cons h t =>
    have hh : unicode.IsSpace h = false := by
      have := List.head_dropWhile_not unicode.IsSpace line (by rw [hd]; simp)
      simpa [hd] using this
    cases ht : strings.TrimSpace line with
    | nil =>
      have hall : ∀ x ∈ h :: t, unicode.IsSpace x = true := by
        have := ht
        unfold strings.TrimSpace at this
        rw [hd] at this
        exact List.rdropWhile_eq_nil_iff.mp this
      have := hall h (List.mem_cons_self _ _)
      rw [hh] at this
      exact Bool.noConfusion this
    | cons h2 t2 =>
      rw [ht, hd] at hpre
      obtain ⟨r, hr⟩ := hpre
      have hhead : h2 = h := by
        have := congrArg List.head? hr
        simpa using this
      refine ⟨h2, t2, rfl, ?_, ?_⟩
      · rw [hhead]; exact hh
      · exact ⟨r, hr⟩

/-- The index of the trimmed line in the line is the length of the leading white space. -/
theorem index_trimSpace (line : Text) (hns : ∃ c ∈ line, unicode.IsSpace c = false) :
    strings.Index line (strings.TrimSpace line) =
      ((line.takeWhile unicode.IsSpace).length : Int) := by
  obtain ⟨h, t, hsub, hh, hpre⟩ := trimSpace_shape line hns
  have hsplit : line = line.takeWhile unicode.IsSpace ++ line.dropWhile unicode.IsSpace :=
    (List.takeWhile_append_dropWhile _ _).symm
  have := index_go_skip unicode.IsSpace (strings.TrimSpace line) h t hsub hh
    (line.takeWhile unicode.IsSpace) (line.dropWhile unicode.IsSpace) 0
    (fun c hc => List.mem_takeWhile_imp hc) hpre
  unfold strings.Index
  rw [← hsplit] at this
  rw [this]
  simp

/-- No leading part of a line made of white space is longer than `takeWhile`. -/
theorem space_prefix_length_le (line Q : Text) (hQ : Q <+: line)
    (hsp : ∀ c ∈ Q, unicode.IsSpace c = true) :
    Q.length ≤ (line.takeWhile unicode.IsSpace).length := by
  induction line generalizing Q with
  | nil =>
    have : Q = [] := List.prefix_nil.mp hQ
    simp [this]
  | cons c cs ih =>
    cases Q with
    | nil => simp
    | cons q qs =>
      obtain ⟨hqc, hqs⟩ := List.cons_prefix_cons.mp hQ
      have hc : unicode.IsSpace c = true := by
        rw [← hqc]; exact hsp q (List.mem_cons_self _ _)
      have := ih qs hqs (fun d hd => hsp d (List.mem_cons_of_mem _ hd))
      simp [List.takeWhile, hc, this]

/-- The indentation of a line in range that has a character other than white space. -/
theorem indentation_eq (Src : Text) (L : Int) (line : Text)
    (hL1 : 1 ≤ L) (hL2 : L ≤ ((bytes.Split Src).length : Int))
    (hline : (bytes.Split Src)[(L - 1).toNat]? = some line)
    (hns : ∃ c ∈ line, unicode.IsSpace c = false) :
    indentation Src L = .ok (line.takeWhile unicode.IsSpace) := by
  have hget : (bytes.Split Src).getD (L - 1).toNat [] = line := by
    rw [List.getD_eq_getElem?_getD, hline]
    rfl
  have hidx := index_trimSpace line hns
  have hlen : (line.takeWhile unicode.IsSpace).length ≤ line.length :=
    (List.takeWhile_prefix _).length_le
  unfold indentation
  simp only [hget, hidx]
  rw [if_neg (by omega), if_neg (by omega)]
  simp only [Int.toNat_ofNat]
  congr 1
  exact List.prefix_iff_eq_take.mp (List.takeWhile_prefix _) |>.symm

/-! The run of the action -/

/-- The emitter on the single edit the action builds. -/
theorem editsFromDiffEdits_single (m : protocol.Mapper) (e : diff.Edit) :
    protocol.EditsFromDiffEdits m [e] =
      if 0 ≤ e.Start ∧ e.Start ≤ e.End ∧ e.End ≤ (m.Content.length : Int) then
        .ok [⟨e.Start, e.End, e.New⟩]
      else .error "invalid offset" := by
  simp [protocol.EditsFromDiffEdits]

/-- The buffer after the loop over a single resolved identifier. -/
theorem writeDeclarations_single (ObjectOf : Option ast.Ident → Option types.Object)
    (indent : Text) (id : ast.Ident) (obj : types.Object)
    (hobj : ObjectOf (some id) = some obj) :
    writeDeclarations ObjectOf indent [ast.Expr.Ident id] [] =
      .ok (some ("var ".toList ++ id.Name ++ " ".toList ++ obj.TypeString ++ "\n".toList
        ++ indent ++ id.Name ++ " = ".toList)) := by
  simp [writeDeclarations, asIdent, hobj]

/-- Every run that emits went through all the stages of the function: what it emitted is
one proposal holding the one edit built from the buffer and the two offsets. -/
theorem run_emits_inv (req : codeActionsRequest) (acts : List protocol.CodeAction)
    (hrun : replaceWithVarDeclaration req = .ok acts) (hne : acts ≠ []) :
    ∃ assign pos endPos indent buf,
      selectAssign req.path = some assign ∧ assign.Lhs.length = 1 ∧
      assign.Pos = .ok pos ∧ indentation req.Src (req.StartLine pos) = .ok indent ∧
      writeDeclarations req.ObjectOf indent assign.Lhs [] = .ok (some buf) ∧
      assign.End = .ok endPos ∧
      0 ≤ (req.Offset pos).1 ∧ (req.Offset pos).1 ≤ (req.Offset endPos).1 ∧
      (req.Offset endPos).1 ≤ (req.Src.length : Int) ∧
      acts = [⟨title, req.fh, [⟨(req.Offset pos).1, (req.Offset endPos).1, buf⟩]⟩] := by
  unfold replaceWithVarDeclaration at hrun
  cases hsel : selectAssign req.path with
  | none => rw [hsel] at hrun; cases hrun
  | some assign =>
    rw [hsel] at hrun
    dsimp only at hrun
    by_cases hlen : assign.Lhs.length = 1
    · rw [if_neg (not_not.mpr hlen)] at hrun
      cases hpos : assign.Pos with
      | error p => rw [hpos] at hrun; cases hrun
      | ok pos =>
        rw [hpos] at hrun
        dsimp only at hrun
        cases hind : indentation req.Src (req.StartLine pos) with
        | error p => rw [hind] at hrun; cases hrun
        | ok indent =>
          rw [hind] at hrun
          dsimp only at hrun
          cases hw : writeDeclarations req.ObjectOf indent assign.Lhs [] with
          | error p => rw [hw] at hrun; cases hrun
          | ok r =>
            rw [hw] at hrun
            cases r with
            | none =>
              dsimp only at hrun
              cases hrun
              exact absurd rfl hne
            | some buf =>
              dsimp only at hrun
              cases hend : assign.End with
              | error p => rw [hend] at hrun; cases hrun
              | ok endPos =>
                rw [hend] at hrun
                dsimp only at hrun
                rw [editsFromDiffEdits_single] at hrun
                dsimp only [codeActionsRequest.Mapper] at hrun
                by_cases hc : 0 ≤ (req.Offset pos).1 ∧ (req.Offset pos).1 ≤ (req.Offset endPos).1 ∧
                    (req.Offset endPos).1 ≤ (req.Src.length : Int)
                · rw [if_pos hc] at hrun
                  dsimp only at hrun
                  cases hrun
                  exact ⟨assign, pos, endPos, indent, buf, rfl, hlen, hpos, hind, hw, hend,
                    hc.1, hc.2.1, hc.2.2, rfl⟩
                · rw [if_neg hc] at hrun
                  cases hrun
    · rw [if_pos hlen] at hrun
      cases hrun
      exact absurd rfl hne

/-- The run on a statement with one resolved identifier on the left whose line is found:
it goes on to the offsets and the emitter. -/
theorem run_single (req : codeActionsRequest) (assign : ast.AssignStmt) (id : ast.Ident)
    (obj : types.Object) (P : Text)
    (hsel : selectAssign req.path = some assign) (hLhs : assign.Lhs = [ast.Expr.Ident id])
    (hobj : req.ObjectOf (some id) = some obj)
    (hind : indentation req.Src (req.StartLine id.NamePos) = .ok P) :
    replaceWithVarDeclaration req =
      match assign.End with
      | .error p => .error p
      | .ok endPos =>
        if 0 ≤ (req.Offset id.NamePos).1 ∧ (req.Offset id.NamePos).1 ≤ (req.Offset endPos).1 ∧
            (req.Offset endPos).1 ≤ (req.Src.length : Int) then
          .ok [⟨title, req.fh, [⟨(req.Offset id.NamePos).1, (req.Offset endPos).1,
            "var ".toList ++ id.Name ++ " ".toList ++ obj.TypeString ++ "\n".toList
              ++ P ++ id.Name ++ " = ".toList⟩]⟩]
        else .error ("failed to convert diff.Edit to protocol.TextEdit:" ++ "invalid offset") := by
  have hpos : assign.Pos = .ok id.NamePos := by
    simp [ast.AssignStmt.Pos, hLhs, ast.Expr.Pos]
  have hw := writeDeclarations_single req.ObjectOf P id obj hobj
  unfold replaceWithVarDeclaration
  rw [hsel]
  dsimp only
  rw [if_neg (by simp [hLhs]), hpos]
  dsimp only
  rw [hind]
  dsimp only
  rw [hLhs, hw]
  dsimp only
  cases assign.End with
  | error p => rfl
  | ok endPos =>
    dsimp only
    rw [editsFromDiffEdits_single]
    dsimp only [codeActionsRequest.Mapper]
    by_cases hc : 0 ≤ (req.Offset id.NamePos).1 ∧
        (req.Offset id.NamePos).1 ≤ (req.Offset endPos).1 ∧
        (req.Offset endPos).1 ≤ (req.Src.length : Int)
    · rw [if_pos hc, if_pos hc]
    · rw [if_neg hc, if_neg hc]

/-- A loop over one expression that ends with a buffer met a resolved identifier. -/
theorem writeDeclarations_one_inv (ObjectOf : Option ast.Ident → Option types.Object)
    (indent : Text) (e : ast.Expr) (buf : Text)
    (h : writeDeclarations ObjectOf indent [e] [] = .ok (some buf)) :
    ∃ id obj, e = ast.Expr.Ident id ∧ ObjectOf (some id) = some obj ∧
      buf = "var ".toList ++ id.Name ++ " ".toList ++ obj.TypeString ++ "\n".toList
        ++ indent ++ id.Name ++ " = ".toList := by
  unfold writeDeclarations at h
  cases hobj : ObjectOf (asIdent e) with
  | none => rw [hobj] at h; cases h
  | some obj =>
    rw [hobj] at h
    dsimp only at h
    cases e with
    | Other f t =>
      simp only [asIdent] at h
      cases h
    | Ident id =>
      refine ⟨id, obj, rfl, hobj, ?_⟩
      simp only [asIdent, writeDeclarations] at h
      have := Option.some.inj (Except.ok.inj h)
      rw [← this]
      simp

/-- A list of length one is a singleton. -/
theorem length_one_singleton (l : List ast.Expr) (h : l.length = 1) : ∃ e, l = [e] :=
  List.length_eq_one.mp h

/-- The action reads the number the translator returns and never its error: a translator
whose errors are dropped gives the same run. -/
theorem run_ignores_offset_error (req : codeActionsRequest) :
    replaceWithVarDeclaration
        ⟨req.path, req.Src, req.StartLine, req.ObjectOf,
          fun p => ((req.Offset p).1, none), req.fh⟩ =
      replaceWithVarDeclaration req := rfl

/-- An edit within the source leaves the text before its start and from its end on. -/
theorem applyEdit_frame (src : Text) (te : protocol.TextEdit)
    (h1 : te.Start ≤ te.End) (h2 : te.End ≤ (src.length : Int)) :
    (applyEdit src te).take te.Start.toNat = src.take te.Start.toNat ∧
    (applyEdit src te).drop (te.Start.toNat + te.NewText.length) = src.drop te.End.toNat := by
  have hs : te.Start.toNat ≤ src.length := by omega
  have hlen : (src.take te.Start.toNat).length = te.Start.toNat := by
    rw [List.length_take]; omega
  unfold applyEdit
  constructor
  · rw [List.append_assoc, List.take_append_of_le_length (by omega)]
    rw [List.take_take]
    simp
  · have : te.Start.toNat + te.NewText.length
        = (src.take te.Start.toNat ++ te.NewText).length := by
      rw [List.length_append, hlen]
    rw [this, List.drop_left]

/-- Without an assignment statement on the path the run panics at `len(assign.Lhs)`. -/
theorem run_no_assign_panics (req : codeActionsRequest)
    (h : ∀ n ∈ req.path, ∀ s, n ≠ ast.Node.AssignStmt s) :
    replaceWithVarDeclaration req =
      .error "runtime error: invalid memory address or nil pointer dereference" := by
  unfold replaceWithVarDeclaration
  rw [selectAssign_eq_none req.path h]

/-- When the search selects a statement, it is the last assignment statement of the path:
none follows it. -/
theorem selectAssign_some_last (path : List ast.Node) (s : ast.AssignStmt)
    (h : selectAssign path = some s) :
    ∃ pre post, path = pre ++ ast.Node.AssignStmt s :: post ∧
      ∀ n ∈ post, ∀ t, n ≠ ast.Node.AssignStmt t := by
  induction path using List.reverseRecOn with
  | nil => cases h
  | append_singleton init n ih =>
    cases n with
    | AssignStmt t =>
      have ht : selectAssign (init ++ [ast.Node.AssignStmt t]) = some t :=
        selectAssign_last init [] t (fun _ hn => absurd hn (List.not_mem_nil _))
      rw [ht] at h
      cases h
      exact ⟨init, [], rfl, fun _ hn => absurd hn (List.not_mem_nil _)⟩
    | Other f t =>
      have hstep : selectAssign (init ++ [ast.Node.Other f t]) = selectAssign init := by
        unfold selectAssign
        rw [List.foldl_append]
        rfl
      rw [hstep] at h
      obtain ⟨pre, post, hp, hno⟩ := ih h
      refine ⟨pre, post ++ [ast.Node.Other f t], by rw [hp]; simp, ?_⟩
      intro n hn u
      rcases List.mem_append.mp hn with hn | hn
      · exact hno n hn u
      · rw [List.mem_singleton.mp hn]
        exact fun e => ast.Node.noConfusion e

/-! The claims -/

/-- C1, at the failing input `reqSimple`: the action emits the edit that replaces the
whole statement `y := compute()` (offsets 26 to 40) by `var y int`, a line break, the
indentation and `y = `; in the resulting document nothing stands after `y = ` on its
line, the text `compute()` of the right-hand side is gone. -/
theorem rhs_dropped_at_reqSimple :
    replaceWithVarDeclaration reqSimple =
        .ok [⟨title, "file:///p.go", [⟨26, 40, "var y int\n    y = ".toList⟩]⟩] ∧
      (srcSimple.drop 26).take 14 = "y := compute()".toList ∧
      applyEdit srcSimple ⟨26, 40, "var y int\n    y = ".toList⟩ =
        "package p\n\nfunc f() \x7b\n    var y int\n    y = \n    _ = y\n\x7d\n".toList ∧
      applyEdit srcSimple ⟨26, 40, "var y int\n    y = ".toList⟩ ≠
        "package p\n\nfunc f() \x7b\n    var y int\n    y = compute()\n    _ = y\n\x7d\n".toList := by
  refine ⟨rfl, rfl, rfl, ?_⟩
  decide

/-- C2: when the selected statement has the single left-hand-side identifier `x`, the
type information resolves `x` to an object whose type prints as `T`, and the indentation
computed for its line is `P`, the buffer built is exactly
`"var " ++ x ++ " " ++ T ++ "\n" ++ P ++ x ++ " = "`; every proposal emitted holds one edit
with that text; and the proposal is emitted as soon as the end of the statement is known
and the two offsets are consistent with the document. -/
theorem replacement_text_exact (req : codeActionsRequest) (assign : ast.AssignStmt)
    (x : ast.Ident) (obj : types.Object) (P : Text)
    (hsel : selectAssign req.path = some assign)
    (hLhs : assign.Lhs = [ast.Expr.Ident x])
    (hobj : req.ObjectOf (some x) = some obj)
    (hind : indentation req.Src (req.StartLine x.NamePos) = .ok P) :
    writeDeclarations req.ObjectOf P assign.Lhs [] =
        .ok (some ("var ".toList ++ x.Name ++ " ".toList ++ obj.TypeString ++ "\n".toList
          ++ P ++ x.Name ++ " = ".toList)) ∧
      (∀ act ∈ proposals (replaceWithVarDeclaration req),
        act.Edits.map (fun te => te.NewText) =
          ["var ".toList ++ x.Name ++ " ".toList ++ obj.TypeString ++ "\n".toList
            ++ P ++ x.Name ++ " = ".toList]) ∧
      (∀ endPos, assign.End = .ok endPos →
        0 ≤ (req.Offset x.NamePos).1 → (req.Offset x.NamePos).1 ≤ (req.Offset endPos).1 →
        (req.Offset endPos).1 ≤ (req.Src.length : Int) →
        replaceWithVarDeclaration req =
          .ok [⟨title, req.fh, [⟨(req.Offset x.NamePos).1, (req.Offset endPos).1,
            "var ".toList ++ x.Name ++ " ".toList ++ obj.TypeString ++ "\n".toList
              ++ P ++ x.Name ++ " = ".toList⟩]⟩]) := by
  have hrun := run_single req assign x obj P hsel hLhs hobj hind
  refine ⟨?_, ?_, ?_⟩
  · rw [hLhs]
    exact writeDeclarations_single req.ObjectOf P x obj hobj
  · intro act hact
    rw [hrun] at hact
    cases hend : assign.End with
    | error p =>
      rw [hend] at hact
      simp [proposals] at hact
    | ok endPos =>
      rw [hend] at hact
      dsimp only at hact
      split at hact
      · simp only [proposals, List.mem_singleton] at hact
        rw [hact]
        rfl
      · simp [proposals] at hact
  · intro endPos hend h0 h1 h2
    rw [hrun, hend]
    dsimp only
    rw [if_pos ⟨h0, h1, h2⟩]

/-- C2, at `reqSimple`: the replacement text is `var y int`, a line break, four spaces
and `y = `. -/
theorem replacement_text_exact_witness :
    selectAssign reqSimple.path = some assignSimple ∧
      assignSimple.Lhs = [ast.Expr.Ident ⟨27, "y".toList⟩] ∧
      reqSimple.ObjectOf (some ⟨27, "y".toList⟩) = some ⟨"int".toList⟩ ∧
      indentation reqSimple.Src (reqSimple.StartLine 27) = .ok "    ".toList ∧
      ∀ act ∈ proposals (replaceWithVarDeclaration reqSimple),
        act.Edits.map (fun te => te.NewText) = ["var y int\n    y = ".toList] :=
  ⟨rfl, rfl, rfl, rfl,
    (replacement_text_exact reqSimple assignSimple ⟨27, "y".toList⟩ ⟨"int".toList⟩
      "    ".toList rfl rfl rfl rfl).2.1⟩

/-- C3: when the selected statement has more than one target on its left-hand side, the
action returns normally without a call of `addEditAction`, whatever the type information
and the offset translator of the request are. -/
theorem multi_target_no_proposal (req : codeActionsRequest) (assign : ast.AssignStmt)
    (hsel : selectAssign req.path = some assign) (hlen : 1 < assign.Lhs.length) :
    replaceWithVarDeclaration req = .ok [] := by
  unfold replaceWithVarDeclaration
  rw [hsel]
  dsimp only
  rw [if_pos (by omega)]

/-- C3, at `a, b := f()`. -/
theorem multi_target_no_proposal_witness :
    selectAssign reqMulti.path = some assignMulti ∧ 1 < assignMulti.Lhs.length ∧
      replaceWithVarDeclaration reqMulti = .ok [] :=
  ⟨rfl, by decide, multi_target_no_proposal reqMulti assignMulti rfl (by decide)⟩

/-- C4: when the single left-hand-side identifier of the selected statement is not
resolved by the type information (`ObjectOf` returns nil), no proposal is emitted: the
run makes no call of `addEditAction`, and once the line of the statement is found it
returns normally with nothing emitted. -/
theorem unresolved_no_proposal (req : codeActionsRequest) (assign : ast.AssignStmt)
    (x : ast.Ident)
    (hsel : selectAssign req.path = some assign)
    (hLhs : assign.Lhs = [ast.Expr.Ident x])
    (hobj : req.ObjectOf (some x) = none) :
    proposals (replaceWithVarDeclaration req) = [] ∧
      ∀ P, indentation req.Src (req.StartLine x.NamePos) = .ok P →
        replaceWithVarDeclaration req = .ok [] := by
  have hpos : assign.Pos = .ok x.NamePos := by
    simp [ast.AssignStmt.Pos, hLhs, ast.Expr.Pos]
  have hw : ∀ P, writeDeclarations req.ObjectOf P [ast.Expr.Ident x] [] = .ok none := by
    intro P
    simp [writeDeclarations, asIdent, hobj]
  have hrun : replaceWithVarDeclaration req =
      match indentation req.Src (req.StartLine x.NamePos) with
      | .error p => .error p
      | .ok _ => .ok [] := by
    unfold replaceWithVarDeclaration
    rw [hsel]
    dsimp only
    rw [if_neg (by simp [hLhs]), hpos]
    dsimp only
    cases hind : indentation req.Src (req.StartLine x.NamePos) with
    | error p => rfl
    | ok indent =>
      dsimp only
      rw [hLhs, hw indent]
  constructor
  · rw [hrun]
    cases indentation req.Src (req.StartLine x.NamePos) <;> rfl
  · intro P hP
    rw [hrun, hP]

/-- C4, at `reqUnresolved`. -/
theorem unresolved_no_proposal_witness :
    selectAssign reqUnresolved.path = some assignSimple ∧
      assignSimple.Lhs = [ast.Expr.Ident ⟨27, "y".toList⟩] ∧
      reqUnresolved.ObjectOf (some ⟨27, "y".toList⟩) = none ∧
      proposals (replaceWithVarDeclaration reqUnresolved) = [] :=
  ⟨rfl, rfl, rfl,
    (unresolved_no_proposal reqUnresolved assignSimple ⟨27, "y".toList⟩ rfl rfl rfl).1⟩

/-- C5, at the failing input `reqNested`: on the path of a selection inside `x := 1`
nested in `f := func() ...`, the first assignment statement in path order is the inner
one, and the action selects the outer one: the edit it emits replaces the whole of
`f := func() ...` (offsets 23 to 56) by `var f func()` and `f = `. -/
theorem nested_selects_outermost :
    innermostAssign reqNested.path = some assignInner ∧
      selectAssign reqNested.path = some assignOuter ∧
      assignOuter ≠ assignInner ∧
      replaceWithVarDeclaration reqNested =
        .ok [⟨title, "file:///p.go", [⟨23, 56, "var f func()\n\tf = ".toList⟩]⟩] :=
  ⟨rfl, rfl, by decide, rfl⟩

/-- C6, at the failing input `reqPlain`: the selected statement `x = 1` has the token
`=`, not `:=`, and the action emits a proposal all the same, replacing the statement
(offsets 34 to 39) by `var x int` and `x = `. -/
theorem plain_assignment_emits :
    selectAssign reqPlain.path = some assignPlain ∧
      assignPlain.Tok = token.Token.ASSIGN ∧
      assignPlain.Tok ≠ token.Token.DEFINE ∧
      replaceWithVarDeclaration reqPlain =
        .ok [⟨title, "file:///p.go", [⟨34, 39, "var x int\n\tx = ".toList⟩]⟩] :=
  ⟨rfl, rfl, by decide, rfl⟩

/-- C7, at the failing input `reqReturn`: no node of the path is an assignment statement,
and the run does not return normally: it panics on the nil `assign` of line 35. -/
theorem no_assignment_panics :
    (∀ n ∈ reqReturn.path, ∀ s, n ≠ ast.Node.AssignStmt s) ∧
      selectAssign reqReturn.path = none ∧
      replaceWithVarDeclaration reqReturn =
        .error "runtime error: invalid memory address or nil pointer dereference" := by
  refine ⟨?_, rfl, rfl⟩
  intro n hn s
  simp only [reqReturn, List.mem_cons, List.mem_singleton, List.not_mem_nil, or_false] at hn
  rcases hn with h | h | h | h | h <;> rw [h] <;> exact fun e => ast.Node.noConfusion e

/-- C8: when the start of the selected statement lies on line `L` of the source, `L` is
at least 1 and at most the number of lines, and the line holds a character that is not
white space, then `strings.Index(firstLine, strings.TrimSpace(firstLine))` is not `-1`,
the indentation is computed, it is the line cut at that index, and it is the longest
leading part of the line made of white space only.  The replacement text follows: when
the left-hand side is the single identifier `x`, resolved to an object of type `T`, the
buffer written is `var x T`, a line break, then that indentation followed by the name of
the variable and ` = `, and the proposal with that text is emitted as soon as the end of
the statement is known and the two offsets are consistent with the document; and every
proposal the request emits holds one edit with such a text. -/
theorem indentation_longest_leading_space (req : codeActionsRequest)
    (assign : ast.AssignStmt) (pos : token.Pos) (L : Int) (line : Text)
    (hsel : selectAssign req.path = some assign)
    (hpos : assign.Pos = .ok pos)
    (hL : req.StartLine pos = L)
    (hL1 : 1 ≤ L) (hL2 : L ≤ ((bytes.Split req.Src).length : Int))
    (hline : (bytes.Split req.Src)[(L - 1).toNat]? = some line)
    (hns : ∃ c ∈ line, unicode.IsSpace c = false) :
    strings.Index line (strings.TrimSpace line) ≠ -1 ∧
      ∃ P, indentation req.Src (req.StartLine pos) = .ok P ∧
        P = line.take (strings.Index line (strings.TrimSpace line)).toNat ∧
        P <+: line ∧ (∀ c ∈ P, unicode.IsSpace c = true) ∧
        (∀ Q, Q <+: line → (∀ c ∈ Q, unicode.IsSpace c = true) → Q.length ≤ P.length) ∧
        (∀ act ∈ proposals (replaceWithVarDeclaration req),
          ∃ (x : ast.Ident) (obj : types.Object), assign.Lhs = [ast.Expr.Ident x] ∧
            act.Edits.map (fun te => te.NewText) =
              [("var ".toList ++ x.Name ++ " ".toList ++ obj.TypeString) ++ "\n".toList
                ++ (P ++ x.Name ++ " = ".toList)]) ∧
        (∀ (x : ast.Ident) (obj : types.Object),
          assign.Lhs = [ast.Expr.Ident x] → req.ObjectOf (some x) = some obj →
            writeDeclarations req.ObjectOf P assign.Lhs [] =
                .ok (some (("var ".toList ++ x.Name ++ " ".toList ++ obj.TypeString)
                  ++ "\n".toList ++ (P ++ x.Name ++ " = ".toList))) ∧
              ∀ endPos, assign.End = .ok endPos →
                0 ≤ (req.Offset pos).1 → (req.Offset pos).1 ≤ (req.Offset endPos).1 →
                (req.Offset endPos).1 ≤ (req.Src.length : Int) →
                replaceWithVarDeclaration req =
                  .ok [⟨title, req.fh, [⟨(req.Offset pos).1, (req.Offset endPos).1,
                    ("var ".toList ++ x.Name ++ " ".toList ++ obj.TypeString)
                      ++ "\n".toList ++ (P ++ x.Name ++ " = ".toList)⟩]⟩]) := by
  have hidx := index_trimSpace line hns
  have hind := indentation_eq req.Src L line hL1 hL2 hline hns
  refine ⟨by rw [hidx]; omega, line.takeWhile unicode.IsSpace, by rw [hL]; exact hind,
    ?_, List.takeWhile_prefix _, fun c hc => List.mem_takeWhile_imp hc,
    fun Q hQ hsp => space_prefix_length_le line Q hQ hsp, ?_, ?_⟩
  · rw [hidx, Int.toNat_ofNat]
    exact List.prefix_iff_eq_take.mp (List.takeWhile_prefix _)
  · intro act hact
    cases hrun : replaceWithVarDeclaration req with
    | error p => rw [hrun] at hact; simp [proposals] at hact
    | ok acts =>
      rw [hrun] at hact
      have hne : acts ≠ [] := by
        intro e
        rw [e] at hact
        simp [proposals] at hact
      obtain ⟨assign2, pos2, endPos, indent, buf, hsel2, hlen, hpos2, hind2, hw, _, _, _, _,
        hacts⟩ := run_emits_inv req acts hrun hne
      have ha : assign2 = assign := Option.some.inj (hsel2.symm.trans hsel)
      subst ha
      have hp : pos2 = pos := Except.ok.inj (hpos2.symm.trans hpos)
      subst hp
      rw [hL, hind] at hind2
      have hi : indent = line.takeWhile unicode.IsSpace := (Except.ok.inj hind2).symm
      subst hi
      obtain ⟨e, he⟩ := length_one_singleton assign2.Lhs hlen
      rw [he] at hw
      obtain ⟨x, obj, hx, _, hbuf⟩ := writeDeclarations_one_inv _ _ e buf hw
      refine ⟨x, obj, by rw [he, hx], ?_⟩
      rw [hacts] at hact
      simp only [proposals, List.mem_singleton] at hact
      rw [hact, hbuf]
      simp
  · intro x obj hLhs hobj
    have hp : pos = x.NamePos := by
      have h := hpos
      simp only [ast.AssignStmt.Pos, hLhs, ast.Expr.Pos] at h
      exact (Except.ok.inj h).symm
    subst hp
    have hind2 : indentation req.Src (req.StartLine x.NamePos) =
        .ok (line.takeWhile unicode.IsSpace) := by rw [hL]; exact hind
    constructor
    · rw [hLhs, writeDeclarations_single req.ObjectOf _ x obj hobj]
      simp
    · intro endPos hend h0 h1 h2
      rw [run_single req assign x obj _ hsel hLhs hobj hind2, hend]
      dsimp only
      rw [if_pos ⟨h0, h1, h2⟩]
      simp

/-- C8, at `reqSimple`: line 4 is `    y := compute()`, its indentation is four spaces,
and the proposal emitted replaces the statement by `var y int`, a line break, and the
four spaces followed by `y = `. -/
theorem indentation_longest_leading_space_witness :
    selectAssign reqSimple.path = some assignSimple ∧
      assignSimple.Pos = .ok 27 ∧ reqSimple.StartLine 27 = 4 ∧
      (bytes.Split reqSimple.Src)[3]? = some "    y := compute()".toList ∧
      strings.Index "    y := compute()".toList
        (strings.TrimSpace "    y := compute()".toList) ≠ -1 ∧
      indentation reqSimple.Src (reqSimple.StartLine 27) = .ok "    ".toList ∧
      writeDeclarations reqSimple.ObjectOf "    ".toList assignSimple.Lhs [] =
        .ok (some ("var y int".toList ++ "\n".toList ++ ("    ".toList ++ "y = ".toList))) ∧
      replaceWithVarDeclaration reqSimple =
        .ok [⟨title, "file:///p.go",
          [⟨26, 40, "var y int".toList ++ "\n".toList ++ ("    ".toList ++ "y = ".toList)⟩]⟩] := by
  obtain ⟨hidx, P, hP, _, _, _, _, _, hout⟩ :=
    indentation_longest_leading_space reqSimple assignSimple 27 4
      "    y := compute()".toList rfl rfl rfl (by decide) (by decide) rfl
      ⟨'y', by decide, by decide⟩
  have hPe : P = "    ".toList := by
    have h : indentation reqSimple.Src (reqSimple.StartLine 27) = .ok "    ".toList := rfl
    rw [h] at hP
    exact (Except.ok.inj hP).symm
  subst hPe
  obtain ⟨hw, hrun⟩ := hout ⟨27, "y".toList⟩ ⟨"int".toList⟩ rfl rfl
  exact ⟨rfl, rfl, rfl, rfl, hidx, rfl, hw,
    hrun 41 rfl (by decide) (by decide) (by decide)⟩

/-- C9: every proposal the action emits is the only one of its run, is titled
"Replace := with var declaration", and holds exactly one edit, whose start and end are
the offsets the translator gives for `Pos()` and `End()` of the selected statement; the
edit applied to the source leaves the text before the start and the text from the end
onwards as they were. -/
theorem emitted_proposal_frame (req : codeActionsRequest) (act : protocol.CodeAction)
    (hact : act ∈ proposals (replaceWithVarDeclaration req)) :
    ∃ assign pos endPos text,
      selectAssign req.path = some assign ∧ assign.Pos = .ok pos ∧
      assign.End = .ok endPos ∧
      replaceWithVarDeclaration req = .ok [act] ∧
      act.Title = "Replace := with var declaration" ∧
      act.Edits = [⟨(req.Offset pos).1, (req.Offset endPos).1, text⟩] ∧
      (applyEdit req.Src ⟨(req.Offset pos).1, (req.Offset endPos).1, text⟩).take
          (req.Offset pos).1.toNat = req.Src.take (req.Offset pos).1.toNat ∧
      (applyEdit req.Src ⟨(req.Offset pos).1, (req.Offset endPos).1, text⟩).drop
          ((req.Offset pos).1.toNat + text.length) = req.Src.drop (req.Offset endPos).1.toNat := by
  cases hrun : replaceWithVarDeclaration req with
  | error p => rw [hrun] at hact; simp [proposals] at hact
  | ok acts =>
    rw [hrun] at hact
    have hne : acts ≠ [] := by
      intro e
      rw [e] at hact
      simp [proposals] at hact
    obtain ⟨assign, pos, endPos, indent, buf, hsel, _, hpos, _, _, hend, _, h1, h2,
      hacts⟩ := run_emits_inv req acts hrun hne
    rw [hacts] at hact
    simp only [proposals, List.mem_singleton] at hact
    have hf := applyEdit_frame req.Src ⟨(req.Offset pos).1, (req.Offset endPos).1, buf⟩ h1 h2
    refine ⟨assign, pos, endPos, buf, hsel, hpos, hend, ?_, ?_, ?_, hf.1, hf.2⟩
    · rw [hacts, hact]
    · rw [hact]; rfl
    · rw [hact]

/-- C9, at `reqSimple`: the one proposal, with its edit from offset 26 to offset 40. -/
theorem emitted_proposal_frame_witness :
    (⟨title, "file:///p.go", [⟨26, 40, "var y int\n    y = ".toList⟩]⟩ : protocol.CodeAction)
        ∈ proposals (replaceWithVarDeclaration reqSimple) ∧
      ∃ assign pos endPos text,
        selectAssign reqSimple.path = some assign ∧ assign.Pos = .ok pos ∧
        assign.End = .ok endPos ∧
        replaceWithVarDeclaration reqSimple =
          .ok [⟨title, "file:///p.go", [⟨26, 40, "var y int\n    y = ".toList⟩]⟩] ∧
        (⟨title, "file:///p.go", [⟨26, 40, "var y int\n    y = ".toList⟩]⟩ :
          protocol.CodeAction).Title = "Replace := with var declaration" ∧
        (⟨title, "file:///p.go", [⟨26, 40, "var y int\n    y = ".toList⟩]⟩ :
          protocol.CodeAction).Edits =
            [⟨(reqSimple.Offset pos).1, (reqSimple.Offset endPos).1, text⟩] ∧
        (applyEdit reqSimple.Src
            ⟨(reqSimple.Offset pos).1, (reqSimple.Offset endPos).1, text⟩).take
          (reqSimple.Offset pos).1.toNat = reqSimple.Src.take (reqSimple.Offset pos).1.toNat ∧
        (applyEdit reqSimple.Src
            ⟨(reqSimple.Offset pos).1, (reqSimple.Offset endPos).1, text⟩).drop
          ((reqSimple.Offset pos).1.toNat + text.length) =
            reqSimple.Src.drop (reqSimple.Offset endPos).1.toNat :=
  ⟨List.mem_singleton.mpr rfl,
    emitted_proposal_frame reqSimple
      ⟨title, "file:///p.go", [⟨26, 40, "var y int\n    y = ".toList⟩]⟩
      (List.mem_singleton.mpr rfl)⟩

/-- C10: when the run reaches the translation of the positions (the selected statement
has a single resolved identifier on the left and its line is found) and the translator,
which returns `-1` beside every error, fails for the start or for the end of the
statement, the failure does not pass: the run panics and emits no proposal; once the end
of the statement is known the panic is the one of lines 71 to 73, with the diagnostic of
the conversion that refused the failed offsets. -/
theorem offset_failure_aborts (req : codeActionsRequest) (assign : ast.AssignStmt)
    (x : ast.Ident) (obj : types.Object) (P : Text)
    (hsel : selectAssign req.path = some assign)
    (hLhs : assign.Lhs = [ast.Expr.Ident x])
    (hobj : req.ObjectOf (some x) = some obj)
    (hind : indentation req.Src (req.StartLine x.NamePos) = .ok P)
    (hminus : ∀ p, (req.Offset p).2 ≠ none → (req.Offset p).1 = -1)
    (hfail : (req.Offset x.NamePos).2 ≠ none ∨
      ∃ endPos, assign.End = .ok endPos ∧ (req.Offset endPos).2 ≠ none) :
    (∃ d, replaceWithVarDeclaration req = .error d) ∧
      proposals (replaceWithVarDeclaration req) = [] ∧
      ∀ endPos, assign.End = .ok endPos →
        replaceWithVarDeclaration req =
          .error ("failed to convert diff.Edit to protocol.TextEdit:" ++ "invalid offset") := by
  have hrun := run_single req assign x obj P hsel hLhs hobj hind
  cases hend : assign.End with
  | error p =>
    rw [hend] at hrun
    dsimp only at hrun
    refine ⟨⟨p, hrun⟩, by rw [hrun]; rfl, ?_⟩
    intro endPos h
    cases h
  | ok endPos =>
    rw [hend] at hrun
    dsimp only at hrun
    have hc : ¬ (0 ≤ (req.Offset x.NamePos).1 ∧
        (req.Offset x.NamePos).1 ≤ (req.Offset endPos).1 ∧
        (req.Offset endPos).1 ≤ (req.Src.length : Int)) := by
      rintro ⟨h0, h1, _⟩
      rcases hfail with hs | ⟨e, he, hee⟩
      · have := hminus _ hs
        omega
      · rw [hend] at he
        have hep : endPos = e := Except.ok.inj he
        subst hep
        have := hminus _ hee
        omega
    rw [if_neg hc] at hrun
    refine ⟨⟨_, hrun⟩, by rw [hrun]; rfl, ?_⟩
    intro e he
    exact hrun

/-- C10, at `reqOtherFile`: both positions of `y := compute()` are out of the range of
the token file, the translator returns `-1` and an error for each, and the run panics
with the diagnostic of the refused conversion. -/
theorem offset_failure_aborts_witness :
    selectAssign reqOtherFile.path = some assignSimple ∧
      (reqOtherFile.Offset 27) = (-1, some "pos is not in range") ∧
      (reqOtherFile.Offset 41) = (-1, some "pos is not in range") ∧
      replaceWithVarDeclaration reqOtherFile =
        .error "failed to convert diff.Edit to protocol.TextEdit:invalid offset" ∧
      proposals (replaceWithVarDeclaration reqOtherFile) = [] := by
  have h := offset_failure_aborts reqOtherFile assignSimple ⟨27, "y".toList⟩
    ⟨"int".toList⟩ "    ".toList rfl rfl rfl rfl
    (by
      intro p hp
      show (offsetOtherFile p).1 = -1
      have hp2 : (offsetOtherFile p).2 ≠ none := hp
      unfold offsetOtherFile at hp2 ⊢
      split
      · rename_i hr
        rw [if_pos hr] at hp2
        exact absurd rfl hp2
      · rfl)
    (Or.inl (by decide))
  exact ⟨rfl, rfl, rfl, h.2.2 41 rfl, h.2.1⟩

end golang
